import Mathlib

/-!
Verification of the restricted execution sandbox and response-parsing pipeline
of `code-editorapp.py`.

Strings from the Python program are modelled as `List Char` (one entry per
code point, ASCII fragment for case mapping and whitespace classes).  The
dynamic behaviour of an executed snippet (what `compile`/`exec` do) cannot be
embedded directly, so it enters the model as an explicit `RunOutcome` oracle;
everything surrounding it (the safety gate, namespace construction, stream
capture, exception rendering) is translated from the source.
-/

namespace CodeEditor

/-- Program text: a sequence of characters. -/
abbrev Str := List Char

/-- Coerce a Lean string literal to the character-list model. -/
def strL (s : String) : Str := s.data

/-- The backtick character (written via its code point). -/
def btick : Char := Char.ofNat 96

/-- Python `\s` / `str.isspace` on the ASCII fragment:
space, tab, newline, carriage return, vertical tab, form feed. -/
def isPySpace (c : Char) : Bool :=
  c = ' ' || c = '\t' || c = '\n' || c = '\r' || c = Char.ofNat 11 || c = Char.ofNat 12

/-- Python `str.lower`, modelled on the ASCII fragment (`A`-`Z` map to
`a`-`z`, everything else is fixed). -/
def lowerStr (s : Str) : Str := s.map Char.toLower

/-- Leftmost index at which `pat` occurs as a contiguous substring of `s`
(Python `str.find` / the scan underlying `in` and `str.split`). -/
def firstOcc (pat : Str) : Str → Option Nat
  | [] => if pat.isEmpty then some 0 else none
  | c :: t =>
    if pat.isPrefixOf (c :: t) then some 0
    else (firstOcc pat t).map (· + 1)

/-- Python `pat in s`: does `pat` occur as a contiguous substring of `s`? -/
def containsSub (s pat : Str) : Bool := (firstOcc pat s).isSome

/-- Computes `s.take i` for the leftmost occurrence of `pat`; `s` itself when `pat`
does not occur (text before the first occurrence of the marker). -/
def beforeFirst (pat s : Str) : Str :=
  match firstOcc pat s with
  | some i => s.take i
  | none => s

/-- Text after the first occurrence of `pat` in `s`; `s` itself when `pat`
does not occur. -/
def afterFirst (pat s : Str) : Str :=
  match firstOcc pat s with
  | some i => s.drop (i + pat.length)
  | none => s

/-! ## SafetyFilter (`is_safe_code`, source lines 41-48) -/

/-- The fixed denylist of `is_safe_code` (source lines 43-47). -/
def forbidden : List Str :=
  [strL "open(", strL "exec(", strL "eval(", strL "subprocess",
   strL "import os", strL "import sys", strL "__import__",
   strL "importlib", strL "system(", strL "popen("]

/-- Translation of `is_safe_code` (source lines 41-48):
`return not any(dangerous in code.lower() for dangerous in forbidden)`. -/
def is_safe_code (code : Str) : Bool :=
  !(forbidden.any fun dangerous => containsSub (lowerStr code) dangerous)

/-- Spec-side notion: `code` contains `pat` case-insensitively (both sides
lowered, then contiguous-substring search). -/
def containsCI (code pat : Str) : Bool :=
  containsSub (lowerStr code) (lowerStr pat)

/-! ## OutputCapture (`capture_output`, source lines 50-59) -/

/-- A standard-channel target: the host's real stdout/stderr, or an
in-memory `StringIO` sink identified by an allocation number. -/
inductive StreamId where
  | hostOut : StreamId
  | hostErr : StreamId
  | sink : Nat → StreamId
deriving DecidableEq

/-- The mutable interpreter state touched by `capture_output`:
which streams `sys.stdout` and `sys.stderr` currently point to. -/
structure Sys where
  stdout : StreamId
  stderr : StreamId
deriving DecidableEq

/-- A raised Python exception, as observable by the caller: class name,
`str(e)`, the `traceback.format_exc()` text, and whether the class derives
from `Exception` (a raised `BaseException` such as `SystemExit` or
`KeyboardInterrupt` has `isException = false` and is not caught by
`except Exception`). -/
structure PyExnInfo where
  typeName : Str
  msg : Str
  trace : Str
  isException : Bool
deriving DecidableEq

/-- How the body of a `with` block ends: normal completion with a value, or
a raised exception propagating out of the block. -/
inductive BodyOutcome (α : Type) where
  | norm : α → BodyOutcome α
  | raise : PyExnInfo → BodyOutcome α

/-- Translation of `capture_output` (source lines 50-59) wrapped around a body, as the
`with` statement runs it: save the old channels, point both channels at two
fresh in-memory sinks, run the body, and in the `finally` block restore the
saved channels whatever the body did — whether it returned normally or
raised. -/
def capture_output_run {α : Type} (s : Sys) (body : Sys → BodyOutcome α × Sys) :
    BodyOutcome α × Sys :=
  let old_out := s.stdout
  let old_err := s.stderr
  let entered : Sys := { stdout := StreamId.sink 0, stderr := StreamId.sink 1 }
  let r := body entered
  (r.1, { stdout := old_out, stderr := old_err })

/-! ## ExecutionEnvironment (`execute_code`, source lines 61-112) -/

/-- A value bound in the snippet's global namespace: an imported module,
the `__builtins__` object, or an attribute of a module (`colorama.Fore`
and friends). -/
inductive PyVal where
  | module : String → PyVal
  | builtinsObj : PyVal
  | moduleAttr : String → String → PyVal
deriving DecidableEq

/-- Translation of `allowed_modules` (source lines 75-93): the fixed nine-module dict,
extended with `colorama`, `Fore`, `Back`, `Style` when the colorama import
succeeded (`coloramaAvailable`); its failure is non-fatal and simply omits
those four entries. -/
def allowed_modules (coloramaAvailable : Bool) : List (String × PyVal) :=
  let base : List (String × PyVal) :=
    [("random", PyVal.module "random"),
     ("math", PyVal.module "math"),
     ("datetime", PyVal.module "datetime"),
     ("json", PyVal.module "json"),
     ("re", PyVal.module "re"),
     ("collections", PyVal.module "collections"),
     ("itertools", PyVal.module "itertools"),
     ("statistics", PyVal.module "statistics"),
     ("time", PyVal.module "time")]
  if coloramaAvailable then
    base ++
      [("colorama", PyVal.module "colorama"),
       ("Fore", PyVal.moduleAttr "colorama" "Fore"),
       ("Back", PyVal.moduleAttr "colorama" "Back"),
       ("Style", PyVal.moduleAttr "colorama" "Style")]
  else base

/-- Translation of `globals_dict` (source lines 96-99): `__builtins__` plus the allowed
modules. -/
def globals_dict (coloramaAvailable : Bool) : List (String × PyVal) :=
  ("__builtins__", PyVal.builtinsObj) :: allowed_modules coloramaAvailable

/-- What compiling and executing one snippet under the constructed
namespace does — the part of the program that runs arbitrary Python and is
therefore an oracle of the model.  Either the snippet completes, having
written `outText`/`errText` to the capture sinks, or compilation/execution
raises `e` after writing `outText`/`errText`. -/
inductive RunOutcome where
  | completes : Str → Str → RunOutcome
  | raises : Str → Str → PyExnInfo → RunOutcome

/-- The exception rendering of source line 110:
`f"{type(e).__name__}: {str(e)}\n{traceback.format_exc()}"`. -/
def renderException (e : PyExnInfo) : Str :=
  e.typeName ++ strL ": " ++ e.msg ++ strL "\n" ++ e.trace

/-- The rejection message of source line 64. -/
def rejectionMsg : Str := strL "Code contains potentially unsafe operations"

/-- A signal crossing the `execute_code` boundary as an exception rather
than a returned triple: the `CodeExecutionError` rejection of line 64, or a
raised `BaseException` that `except Exception` (line 108) does not catch. -/
inductive ExecSignal where
  | codeExecutionError : Str → ExecSignal
  | uncaught : PyExnInfo → ExecSignal
deriving DecidableEq

/-- Observable set-up steps of `execute_code`, recorded so that "performs
no execution at all" is expressible: building the snippet namespace
(with its bound names), entering the capture scope, and running the
compile/exec attempt. -/
inductive ExecEvent where
  | builtNamespace : List String → ExecEvent
  | enteredCapture : ExecEvent
  | ranSnippet : ExecEvent
deriving DecidableEq

/-- The body of the `with capture_output()` block (source lines 102-110):
try to compile and exec the snippet; on success read both sinks into
`output`/`error`; `except Exception` reads only the error sink and renders
the exception report, leaving `output` at its initial `""` (line 66); a
raised non-`Exception` (`BaseException`) propagates. -/
def execute_body (run : RunOutcome) : Sys → BodyOutcome (Str × Str × Str) × Sys :=
  fun entered =>
    match run with
    | RunOutcome.completes o er => (BodyOutcome.norm (o, er, ([] : Str)), entered)
    | RunOutcome.raises _o er e =>
      if e.isException then (BodyOutcome.norm (([] : Str), er, renderException e), entered)
      else (BodyOutcome.raise e, entered)

/-- Translation of `execute_code` (source lines 61-112).  Returns the result of the call
(`Except.ok` with the `(output, error, exception_msg)` triple, or an
`ExecSignal` for an exception crossing the call boundary), the final
`sys` stream state, and the trace of set-up steps performed. -/
def execute_code (coloramaAvailable : Bool) (run : RunOutcome) (code : Str) (s : Sys) :
    Except ExecSignal (Str × Str × Str) × Sys × List ExecEvent :=
  if is_safe_code code = false then
    (Except.error (ExecSignal.codeExecutionError rejectionMsg), s, [])
  else
    let g := globals_dict coloramaAvailable
    let events : List ExecEvent :=
      [ExecEvent.builtNamespace (g.map Prod.fst), ExecEvent.enteredCapture,
       ExecEvent.ranSnippet]
    let r := capture_output_run s (execute_body run)
    match r.1 with
    | BodyOutcome.norm t => (Except.ok t, r.2, events)
    | BodyOutcome.raise e => (Except.error (ExecSignal.uncaught e), r.2, events)

/-! ## ResponseCleaner (`clean_code_from_response`, source lines 20-39)

Each `re.sub(pattern, repl, text)` is translated as a left-to-right scan
that, at every position, first tries to match the pattern there (with the
pattern's exact greedy/lazy semantics, worked out below pattern by
pattern), replaces a match and resumes after it, and otherwise copies one
character.  The scans consume at least one character per step; they are
written with a fuel argument (one unit per step, so `length` fuel always
suffices) to keep them structurally recursive and kernel-evaluable. -/

/-- Matches `\s*\n` after a fixed prefix: the greedy `\s*` backtracks so that the
match consumes the whitespace prefix up to and including its *last*
newline; no match if the whitespace prefix has no newline.  Returns the
rest of the text after the match. -/
def dropWsToLastNl : Str → Option Str
  | [] => none
  | c :: t =>
    if isPySpace c then
      match dropWsToLastNl t with
      | some r => some r
      | none => if c = '\n' then some t else none
    else none

/-- Try pattern `r'```python\s*\n'` (source line 23) at the current
position. -/
def matchPyFence (s : Str) : Option Str :=
  if (strL "```python").isPrefixOf s then dropWsToLastNl (s.drop 9) else none

/-- Try pattern `r'```\s*\n?'` (source line 24) at the current position:
after the three backticks the greedy `\s*` eats the whole whitespace run
and the optional `\n?` then matches the empty string. -/
def matchFence (s : Str) : Option Str :=
  if (strL "```").isPrefixOf s then some ((s.drop 3).dropWhile isPySpace) else none

/-- Scan for `re.sub(r'```python\s*\n', '', ...)` (source line 23). -/
def subPyFenceF : Nat → Str → Str
  | 0, s => s
  | _ + 1, [] => []
  | fuel + 1, c :: t =>
    match matchPyFence (c :: t) with
    | some rest => subPyFenceF fuel rest
    | none => c :: subPyFenceF fuel t

/-- Translation of `re.sub(r'```python\s*\n', '', s)` (source line 23). -/
def subPyFence (s : Str) : Str := subPyFenceF s.length s

/-- Scan for `re.sub(r'```\s*\n?', '', ...)` (source line 24). -/
def subFenceF : Nat → Str → Str
  | 0, s => s
  | _ + 1, [] => []
  | fuel + 1, c :: t =>
    match matchFence (c :: t) with
    | some rest => subFenceF fuel rest
    | none => c :: subFenceF fuel t

/-- Translation of `re.sub(r'```\s*\n?', '', s)` (source line 24). -/
def subFence (s : Str) : Str := subFenceF s.length s

/-- Python `str.strip()` (source line 27): drop leading and trailing
whitespace. -/
def stripL (s : Str) : Str :=
  ((s.dropWhile isPySpace).reverse.dropWhile isPySpace).reverse

/-- The lazy group of `r'\*\*(.+?)\*\*'`, entered after the opening `**`:
find the shortest non-empty run of non-newline characters followed by
`**`; return the group's content and the rest after the closing `**`. -/
def matchBoldAfter : Str → Option (Str × Str)
  | [] => none
  | c :: t =>
    if c = '\n' then none
    else if (strL "**").isPrefixOf t then some ([c], t.drop 2)
    else
      match matchBoldAfter t with
      | some (cont, rest) => some (c :: cont, rest)
      | none => none

/-- Scan for `re.sub(r'\*\*(.+?)\*\*', r'\1', ...)` (source line 30): a
match at a position needs `**` there and a lazily-shortest group closed by
`**`; its replacement is the group content. -/
def subBoldF : Nat → Str → Str
  | 0, s => s
  | _ + 1, [] => []
  | fuel + 1, c :: t =>
    if c = '*' then
      match t with
      | '*' :: u =>
        match matchBoldAfter u with
        | some (cont, rest) => cont ++ subBoldF fuel rest
        | none => c :: subBoldF fuel t
      | _ => c :: subBoldF fuel t
    else c :: subBoldF fuel t

/-- Translation of `re.sub(r'\*\*(.+?)\*\*', r'\1', s)` (source line 30). -/
def subBold (s : Str) : Str := subBoldF s.length s

/-- The lazy group of `r'\*(.+?)\*'`, entered after the opening `*`. -/
def matchItalAfter : Str → Option (Str × Str)
  | [] => none
  | c :: t =>
    if c = '\n' then none
    else if ['*'].isPrefixOf t then some ([c], t.drop 1)
    else
      match matchItalAfter t with
      | some (cont, rest) => some (c :: cont, rest)
      | none => none

/-- Scan for `re.sub(r'\*(.+?)\*', r'\1', ...)` (source line 31). -/
def subItalF : Nat → Str → Str
  | 0, s => s
  | _ + 1, [] => []
  | fuel + 1, c :: t =>
    if c = '*' then
      match matchItalAfter t with
      | some (cont, rest) => cont ++ subItalF fuel rest
      | none => c :: subItalF fuel t
    else c :: subItalF fuel t

/-- Translation of `re.sub(r'\*(.+?)\*', r'\1', s)` (source line 31). -/
def subItal (s : Str) : Str := subItalF s.length s

/-- Try pattern `r'^#\s*```.*$'` with `re.MULTILINE` (source line 34) at a
line-start position: `#`, then `\s*` — which, being followed by the
non-whitespace backtick, must consume exactly the whole whitespace run
(possibly spanning newlines) — then ` ``` `, then `.*` greedily up to the
line end; `$` is zero-width, so the terminating newline (if any) is not
consumed. -/
def matchCmtFence : Str → Option Str
  | [] => none
  | c :: t =>
    if c = '#' then
      let t1 := t.dropWhile isPySpace
      if (strL "```").isPrefixOf t1 then
        some ((t1.drop 3).dropWhile (fun d => d ≠ '\n'))
      else none
    else none

/-- Scan for `re.sub(r'^#\s*```.*$', '', ..., flags=re.MULTILINE)` (source
line 34): the pattern is anchored, so it is only tried at the start of the
text and right after each newline. -/
def subCmtFenceF : Nat → Bool → Str → Str
  | 0, _, s => s
  | _ + 1, _, [] => []
  | fuel + 1, atStart, c :: t =>
    if atStart then
      match matchCmtFence (c :: t) with
      | some rest => subCmtFenceF fuel false rest
      | none => c :: subCmtFenceF fuel (c = '\n') t
    else c :: subCmtFenceF fuel (c = '\n') t

/-- Translation of `re.sub(r'^#\s*```.*$', '', s, flags=re.MULTILINE)` (source line 34). -/
def subCmtFence (s : Str) : Str := subCmtFenceF s.length true s

/-- Number of newline characters in a string. -/
def nlCount (s : Str) : Nat := s.countP (fun c => c = '\n')

/-- The suffix of a string strictly after its last newline (the whole
string when it has no newline). -/
def afterLastNl (s : Str) : Str :=
  (s.reverse.takeWhile (fun c => c ≠ '\n')).reverse

/-- Scan for `re.sub(r'\n\s*\n\s*\n', '\n\n', ...)` (source line 37): a
match starts at a newline whose following whitespace run contains at least
two more newlines; both greedy `\s*` backtrack so that the match extends
exactly to the last newline of that run, and it is replaced by two
newlines. -/
def subBlankF : Nat → Str → Str
  | 0, s => s
  | _ + 1, [] => []
  | fuel + 1, c :: t =>
    if c = '\n' then
      let run := t.takeWhile isPySpace
      if 2 ≤ nlCount run then
        '\n' :: '\n' :: subBlankF fuel (afterLastNl run ++ t.dropWhile isPySpace)
      else c :: subBlankF fuel t
    else c :: subBlankF fuel t

/-- Translation of `re.sub(r'\n\s*\n\s*\n', '\n\n', s)` (source line 37). -/
def subBlank (s : Str) : Str := subBlankF s.length s

/-- Translation of `clean_code_from_response` (source lines 20-39): the six substitutions
and the strip, in source order. -/
def clean_code_from_response (code_text : Str) : Str :=
  subBlank (subCmtFence (subItal (subBold (stripL (subFence (subPyFence code_text))))))

/-! ## ResponseParser (`parse_claude_response`, source lines 114-130) -/

/-- Python `str.split(sep)` for a non-empty separator: cut at each
leftmost occurrence of `sep` and continue after it.  Fueled (one unit per
piece; `length + 1` always suffices since each step consumes at least one
character of the input). -/
def splitOnF (sep : Str) : Nat → Str → List Str
  | 0, s => [s]
  | fuel + 1, s =>
    match firstOcc sep s with
    | none => [s]
    | some i => s.take i :: splitOnF sep fuel (s.drop (i + sep.length))

/-- Python `s.split(sep)` for a non-empty `sep`. -/
def splitOnL (sep s : Str) : List Str := splitOnF sep (s.length + 1) s

/-- The literal marker `---FEEDBACK---`. -/
def fbMarker : Str := strL "---FEEDBACK---"

/-- The literal marker `---CODE---`. -/
def codeMarker : Str := strL "---CODE---"

/-- The body of `parse_claude_response`'s `try` block (source lines
116-127).  `split(...)[1]` and `split(...)[0]` are modelled with `getD`;
the `if marker in response` guards guarantee the split lists are long
enough, so the defaults are never read. -/
def parse_body (response : Str) : Str × Str :=
  let feedback : Str :=
    if containsSub response fbMarker then
      stripL (((splitOnL codeMarker ((splitOnL fbMarker response).getD 1 [])).getD 0 []))
    else []
  let code : Str :=
    if containsSub response codeMarker then
      clean_code_from_response (stripL ((splitOnL codeMarker response).getD 1 []))
    else []
  (feedback, code)

/-- The `try`/`except` shell of `parse_claude_response` (source lines
116-130) over an arbitrary fallible body: a body that raises degrades to
`(response, "")`. -/
def parse_with (body : Str → Except PyExnInfo (Str × Str)) (response : Str) : Str × Str :=
  match body response with
  | Except.ok p => p
  | Except.error _ => (response, [])

/-- The body as a fallible computation.  Every step of the translated body
is total, so it always returns `Except.ok`. -/
def parse_bodyE (response : Str) : Except PyExnInfo (Str × Str) :=
  Except.ok (parse_body response)

/-- Translation of `parse_claude_response` (source lines 114-130). -/
def parse_claude_response (response : Str) : Str × Str :=
  parse_with parse_bodyE response

/-! ## A fragment of Python statement semantics for the `exec` call

`execute_code` runs `exec(compiled_code, globals_dict, local_dict)` with a
fresh empty `local_dict` (source lines 104-105).  To reason about what that
scoping choice does to a snippet, the fragment of Python used by the claim
(top-level assignment, `def` of a zero-argument function, `print` of a
variable, a call) is given CPython's documented semantics: with distinct
globals and locals mappings, top-level name bindings go to the locals
mapping, while the body of a function resolves free names against its own
frame and then the globals mapping only — the `exec` locals mapping is not
an enclosing scope. -/

/-- Statements of the fragment. -/
inductive MiniStmt where
  | assign : String → Nat → MiniStmt
  | defFun : String → List MiniStmt → MiniStmt
  | printVar : String → MiniStmt
  | callFun : String → MiniStmt

/-- Runtime values of the fragment. -/
inductive MiniVal where
  | vnat : Nat → MiniVal
  | vfun : List MiniStmt → MiniVal

/-- Execution state: the globals mapping, the current frame's locals
mapping, and the text printed so far. -/
structure MiniSt where
  globals : List (String × MiniVal)
  locals : List (String × MiniVal)
  out : List Nat

/-- How running a statement list ends. -/
inductive MiniRes where
  | ok : MiniSt → MiniRes
  | nameError : String → MiniRes
  | typeError : String → MiniRes
  | outOfFuel : MiniRes

/-- Name resolution: current frame's locals, then globals (builtins hold no
snippet-visible numeric bindings, so an absent name is a `NameError`). -/
def lookupName (st : MiniSt) (x : String) : Option MiniVal :=
  match st.locals.lookup x with
  | some v => some v
  | none => st.globals.lookup x

/-- Run a statement list.  `bindGlobal` selects where top-level bindings
land: `false` models `exec(code, globals, locals)` with distinct mappings
(bindings go to `locals`); `true` models the single-namespace form
`exec(code, globals)` (bindings go to `globals`).  A function body always
runs in a fresh frame whose bindings are local to it. -/
def runStmts (bindGlobal : Bool) : Nat → List MiniStmt → MiniSt → MiniRes
  | 0, _, _ => MiniRes.outOfFuel
  | _ + 1, [], st => MiniRes.ok st
  | fuel + 1, stmt :: rest, st =>
    match stmt with
    | MiniStmt.assign x n =>
      if bindGlobal then
        runStmts bindGlobal fuel rest
          { st with globals := (x, MiniVal.vnat n) :: st.globals }
      else
        runStmts bindGlobal fuel rest
          { st with locals := (x, MiniVal.vnat n) :: st.locals }
    | MiniStmt.defFun f body =>
      if bindGlobal then
        runStmts bindGlobal fuel rest
          { st with globals := (f, MiniVal.vfun body) :: st.globals }
      else
        runStmts bindGlobal fuel rest
          { st with locals := (f, MiniVal.vfun body) :: st.locals }
    | MiniStmt.printVar x =>
      match lookupName st x with
      | some (MiniVal.vnat n) => runStmts bindGlobal fuel rest { st with out := st.out ++ [n] }
      | some (MiniVal.vfun _) => runStmts bindGlobal fuel rest st
      | none => MiniRes.nameError x
    | MiniStmt.callFun f =>
      match lookupName st f with
      | some (MiniVal.vfun body) =>
        match runStmts false fuel body
            { globals := st.globals, locals := [], out := st.out } with
        | MiniRes.ok st' =>
          runStmts bindGlobal fuel rest
            { st with globals := st'.globals, out := st'.out }
        | r => r
      | some (MiniVal.vnat _) => MiniRes.typeError f
      | none => MiniRes.nameError f

/-- The snippet of claim C10:
`x = 1`, `def f(): print(x)`, `f()`. -/
def snippetC10 : List MiniStmt :=
  [MiniStmt.assign "x" 1,
   MiniStmt.defFun "f" [MiniStmt.printVar "x"],
   MiniStmt.callFun "f"]

/-- The same snippet as program text, as it would be passed to
`execute_code`. -/
def snippetC10Text : Str := strL "x = 1\ndef f():\n    print(x)\nf()\n"

/-- Run a snippet the way `exec(compiled_code, globals_dict, local_dict)`
does on source lines 104-105: the constructed globals, and a distinct,
fresh, initially empty locals mapping. -/
def exec_two_namespaces (stmts : List MiniStmt) : MiniRes :=
  runStmts false 9 stmts { globals := [], locals := [], out := [] }

/-- Run a snippet with a single namespace (`exec(code, globals)`), for
contrast: top-level bindings land in the globals the function bodies see. -/
def exec_one_namespace (stmts : List MiniStmt) : MiniRes :=
  runStmts true 9 stmts { globals := [], locals := [], out := [] }

/-- The `NameError` raised for the C10 snippet, as `execute_code` observes
it (`type(e).__name__`, `str(e)`, trace text; `NameError` derives from
`Exception`). -/
def nameErrorC10 : PyExnInfo :=
  { typeName := strL "NameError"
    msg := strL "name x is not defined"
    trace := strL "Traceback (most recent call last): ..."
    isException := true }

/-! ## Spec-side definitions

Definitions in this section follow the specification's (or a claim's)
wording, to be compared against the translated program; they are the only
definitions not read off the source. -/

/-- The nine always-present module names of the allowlist, as the spec
lists them. -/
def allowedModuleNames : List String :=
  ["random", "math", "datetime", "json", "re", "collections", "itertools",
   "statistics", "time"]

/-- The optional terminal-color bindings, as the spec lists them. -/
def coloramaNames : List String := ["colorama", "Fore", "Back", "Style"]

/-- Claim C3 as stated: for every safety-passing code string, no exception
other than the safety-filter rejection ever crosses the `execute` call
boundary — every call returns an `ExecutionResult`. -/
def C3ClaimStatement : Prop :=
  ∀ (coloramaAvailable : Bool) (run : RunOutcome) (code : Str) (s : Sys),
    is_safe_code code = true →
    ∃ res, (execute_code coloramaAvailable run code s).1 = Except.ok res

/-- Claim C4 as stated: when a snippet raises, `execute` returns the
rendered exception report together with the standard-output and
standard-error text already produced before the fault. -/
def C4ClaimStatement : Prop :=
  ∀ (coloramaAvailable : Bool) (o er : Str) (e : PyExnInfo) (code : Str) (s : Sys),
    is_safe_code code = true →
    (execute_code coloramaAvailable (RunOutcome.raises o er e) code s).1 =
      Except.ok (o, er, renderException e)

/-- Claim C6's feedback, as stated: the text between the first
`---FEEDBACK---` and the first subsequent `---CODE---` (to end of text if
absent), trimmed. -/
def claim_feedback (r : Str) : Str :=
  if containsSub r fbMarker then
    stripL (beforeFirst codeMarker (afterFirst fbMarker r))
  else []

/-- Claim C6's code, as stated: everything after the first occurrence of
`---CODE---`, trimmed and then cleaned. -/
def claim_code (r : Str) : Str :=
  if containsSub r codeMarker then
    clean_code_from_response (stripL (afterFirst codeMarker r))
  else []

/-- Claim C6 as stated, for every reply string. -/
def C6ClaimStatement : Prop :=
  ∀ r : Str, parse_claude_response r = (claim_feedback r, claim_code r)

/-- Amended feedback: the text after the first `---FEEDBACK---`, truncated
at the next `---FEEDBACK---` (to end of text if none), then truncated at
the first `---CODE---` within that segment, trimmed. -/
def spec_feedback (r : Str) : Str :=
  if containsSub r fbMarker then
    stripL (beforeFirst codeMarker (beforeFirst fbMarker (afterFirst fbMarker r)))
  else []

/-- Amended code: the text between the first and second occurrence of
`---CODE---` (to end of text if no second occurrence), trimmed and then
cleaned. -/
def spec_code (r : Str) : Str :=
  if containsSub r codeMarker then
    clean_code_from_response (stripL (beforeFirst codeMarker (afterFirst codeMarker r)))
  else []

/-- Claim C8 as stated: `clean` is idempotent on every text. -/
def C8ClaimStatement : Prop :=
  ∀ x : Str,
    clean_code_from_response (clean_code_from_response x) = clean_code_from_response x

/-! ## Named concrete values used by the witnesses and counterexamples -/

/-- A host stream state: the real console channels. -/
def sys0 : Sys := { stdout := StreamId.hostOut, stderr := StreamId.hostErr }

/-- A raised `SystemExit`: a `BaseException` that does not derive from
`Exception`, so `except Exception` does not catch it. -/
def sysExitInfo : PyExnInfo :=
  { typeName := strL "SystemExit"
    msg := []
    trace := strL "Traceback (most recent call last): ..."
    isException := false }

/-- A raised `ZeroDivisionError` (derives from `Exception`). -/
def zeroDivInfo : PyExnInfo :=
  { typeName := strL "ZeroDivisionError"
    msg := strL "division by zero"
    trace := strL "Traceback (most recent call last): ..."
    isException := true }

/-- A generic raised exception used to exercise the parser's `except`
branch. -/
def parseErrInfo : PyExnInfo :=
  { typeName := strL "ValueError"
    msg := strL "boom"
    trace := strL "Traceback (most recent call last): ..."
    isException := true }

/-- The reply on which claim C6's stated marker semantics and the code's
`split`-based semantics disagree. -/
def c6Input : Str := strL "---FEEDBACK---A---FEEDBACK---B---CODE---a---CODE---b"

/-! ## Predicates about cleaned text -/

/-- Holds when `s` has no occurrence of three consecutive backticks. -/
def NoTriple (s : Str) : Prop := ¬ strL "```" <:+: s

/-- Every newline in `s` is followed by a whitespace run containing at
most one further newline — no match of `r'\n\s*\n\s*\n'` remains. -/
def Collapsed (s : Str) : Prop :=
  ∀ pre suf : Str, s = pre ++ '\n' :: suf → nlCount (suf.takeWhile isPySpace) ≤ 1

/-- Holds when `s` does not start with a whitespace character. -/
def NoSpaceStart (s : Str) : Prop :=
  ∀ c, s.head? = some c → isPySpace c = false

/-- Holds when `s` does not end with a whitespace character. -/
def NoSpaceEnd (s : Str) : Prop :=
  ∀ c, s.getLast? = some c → isPySpace c = false

/-! ## Theorems -/

/-- C1: for every code string on which the safety filter returns false,
`execute_code` raises the distinguished `CodeExecutionError` rejection
(an `ExecSignal`, distinct from a normal `ExecutionResult` triple) and
performs no execution at all — no namespace is built, the capture scope is
never entered, nothing is compiled or run (empty event trace), and the
stream state is untouched. -/
theorem execute_code_rejects_unsafe
    (coloramaAvailable : Bool) (run : RunOutcome) (code : Str) (s : Sys)
    (h : is_safe_code code = false) :
    execute_code coloramaAvailable run code s =
      (Except.error (ExecSignal.codeExecutionError rejectionMsg), s,
        ([] : List ExecEvent)) := by
  simp [execute_code, h]

/-- C1 witness: code containing `import os` is rejected with no execution
performed. -/
theorem execute_code_rejects_unsafe_witness :
    is_safe_code (strL "import os") = false ∧
      execute_code true (RunOutcome.completes [] []) (strL "import os") sys0 =
        (Except.error (ExecSignal.codeExecutionError rejectionMsg), sys0,
          ([] : List ExecEvent)) :=
  ⟨by decide,
   execute_code_rejects_unsafe true (RunOutcome.completes [] []) (strL "import os")
     sys0 (by decide)⟩

/-- C2: `is_safe_code` returns false exactly when the code contains,
case-insensitively, at least one of the ten denylisted substrings; on a
string containing none of them (in any letter case) it returns true.  The
check is a pure function of the text, so it has no side effects by
construction. -/
theorem is_safe_code_iff_denylist (code : Str) :
    is_safe_code code = false ↔ ∃ p ∈ forbidden, containsCI code p = true := by
  have hfix : ∀ p ∈ forbidden, lowerStr p = p := by decide
  constructor
  · intro h
    have hany : (forbidden.any fun dangerous =>
        containsSub (lowerStr code) dangerous) = true := by
      by_contra hne
      have : is_safe_code code = true := by
        unfold is_safe_code
        simp only [Bool.not_eq_true] at hne
        simp [hne]
      rw [this] at h
      exact Bool.noConfusion h
    obtain ⟨p, hp, hc⟩ := List.any_eq_true.mp hany
    exact ⟨p, hp, by unfold containsCI; rw [hfix p hp]; exact hc⟩
  · intro ⟨p, hp, hc⟩
    unfold containsCI at hc
    rw [hfix p hp] at hc
    unfold is_safe_code
    simp only [Bool.not_eq_false']
    exact List.any_eq_true.mpr ⟨p, hp, hc⟩

/-- C5: the capture scope replaces the channels with two in-memory sinks
on entry (the body runs against the sink state) and restores the original
channels on every exit path — for every body, including one that raises
(`BodyOutcome.raise`) — so the stream state after the scope equals the one
before it. -/
theorem capture_output_restores_channels {α : Type} (s : Sys)
    (body : Sys → BodyOutcome α × Sys) :
    (capture_output_run s body).2 = s ∧
      (capture_output_run s body).1 =
        (body { stdout := StreamId.sink 0, stderr := StreamId.sink 1 }).1 :=
  ⟨rfl, rfl⟩

/-- C9: the namespace `execute_code` constructs binds exactly the nine
allowlisted module names, plus `colorama`, `Fore`, `Back`, `Style` exactly
when the terminal-color module is importable, plus the `__builtins__`
binding — and no other name. -/
theorem globals_dict_bindings (coloramaAvailable : Bool) (name : String) :
    name ∈ (globals_dict coloramaAvailable).map Prod.fst ↔
      (name = "__builtins__" ∨ name ∈ allowedModuleNames ∨
        (coloramaAvailable = true ∧ name ∈ coloramaNames)) := by
  cases coloramaAvailable
  all_goals simp [globals_dict, allowed_modules, allowedModuleNames, coloramaNames]
  all_goals try tauto

/-- C3 counterexample: the claim "no exception other than the safety-filter
rejection ever crosses the execute call boundary" fails.  `except Exception`
(source line 108) does not catch a raised `BaseException`: the snippet
`raise SystemExit` passes the safety filter, and the `SystemExit` it raises
propagates out of `execute_code` uncaught. -/
theorem execute_code_contains_faults_refuted : ¬ C3ClaimStatement := by
  intro h
  obtain ⟨res, hres⟩ :=
    h true (RunOutcome.raises [] [] sysExitInfo) (strL "raise SystemExit") sys0
      (by decide)
  have hcomp :
      (execute_code true (RunOutcome.raises [] [] sysExitInfo)
        (strL "raise SystemExit") sys0).1 =
        Except.error (ExecSignal.uncaught sysExitInfo) := rfl
  rw [hcomp] at hres
  exact Except.noConfusion hres

/-- C3 amended: for every code string that passes the safety filter, any
fault deriving from `Exception` raised while compiling or executing the
snippet is contained inside `execute_code` and converted to data in the
returned triple, and a completing snippet likewise returns a triple; the
only exceptions crossing the boundary besides the safety rejection are
raised `BaseException` signals (such as `SystemExit` or
`KeyboardInterrupt`), which propagate uncaught. -/
theorem execute_code_contains_exception_faults
    (coloramaAvailable : Bool) (code : Str) (s : Sys)
    (hsafe : is_safe_code code = true) :
    (∀ o er : Str, ∀ e : PyExnInfo, e.isException = true →
      (execute_code coloramaAvailable (RunOutcome.raises o er e) code s).1 =
        Except.ok ([], er, renderException e)) ∧
    (∀ o er : Str,
      (execute_code coloramaAvailable (RunOutcome.completes o er) code s).1 =
        Except.ok (o, er, [])) ∧
    (∀ o er : Str, ∀ e : PyExnInfo, e.isException = false →
      (execute_code coloramaAvailable (RunOutcome.raises o er e) code s).1 =
        Except.error (ExecSignal.uncaught e)) := by
  refine ⟨?_, ?_, ?_⟩
  · intro o er e he
    simp [execute_code, hsafe, capture_output_run, execute_body, he]
  · intro o er
    simp [execute_code, hsafe, capture_output_run, execute_body]
  · intro o er e he
    simp [execute_code, hsafe, capture_output_run, execute_body, he]

/-- C3 amended witness: `1/0` passes the filter and its
`ZeroDivisionError` is returned as data, not raised. -/
theorem execute_code_contains_exception_faults_witness :
    is_safe_code (strL "1/0") = true ∧
      (execute_code true (RunOutcome.raises [] [] zeroDivInfo) (strL "1/0") sys0).1 =
        Except.ok ([], [], renderException zeroDivInfo) :=
  ⟨by decide,
   (execute_code_contains_exception_faults true (strL "1/0") sys0 (by decide)).1
     [] [] zeroDivInfo rfl⟩

/-- C4 counterexample: the claim that the standard-output text produced
before the fault is preserved fails.  On the exception path only
`error = err.getvalue()` runs (source line 109); `output` keeps its initial
`""` (line 66), so a snippet that printed `8` to stdout before raising
comes back with empty output, not `"8\n"`. -/
theorem execute_code_fault_report_refuted : ¬ C4ClaimStatement := by
  intro h
  have hres :=
    h true (strL "8\n") [] zeroDivInfo (strL "print(8)\n1/0") sys0 (by decide)
  have hcomp :
      (execute_code true (RunOutcome.raises (strL "8\n") [] zeroDivInfo)
        (strL "print(8)\n1/0") sys0).1 =
        Except.ok (([] : Str), ([] : Str), renderException zeroDivInfo) := rfl
  rw [hcomp] at hres
  rw [Except.ok.injEq] at hres
  have h1 := congrArg Prod.fst hres
  exact absurd h1 (by decide)

/-- C4 amended: when a safety-passing snippet raises an `Exception`-derived
fault during compilation or execution, `execute_code` returns the report
rendered as the error type name, `": "`, the message, a newline and the
full traceback text; the standard-error text already captured is preserved
and returned alongside it, while the returned standard-output text is empty
regardless of what the snippet had printed before the fault. -/
theorem execute_code_fault_report_amended
    (coloramaAvailable : Bool) (o er : Str) (e : PyExnInfo) (code : Str) (s : Sys)
    (hsafe : is_safe_code code = true) (hexc : e.isException = true) :
    (execute_code coloramaAvailable (RunOutcome.raises o er e) code s).1 =
      Except.ok ([], er, renderException e) := by
  simp [execute_code, hsafe, capture_output_run, execute_body, hexc]

/-- C4 amended witness: a snippet that printed to both channels before
dividing by zero comes back with its stderr text and the rendered report,
and empty stdout. -/
theorem execute_code_fault_report_amended_witness :
    is_safe_code (strL "print(8)\n1/0") = true ∧
      (execute_code true (RunOutcome.raises (strL "8\n") (strL "warn\n") zeroDivInfo)
        (strL "print(8)\n1/0") sys0).1 =
        Except.ok ([], strL "warn\n", renderException zeroDivInfo) :=
  ⟨by decide,
   execute_code_fault_report_amended true (strL "8\n") (strL "warn\n") zeroDivInfo
     (strL "print(8)\n1/0") sys0 (by decide) rfl⟩

/-- C7: `parse_claude_response` is total — it is a function returning a
(feedback, code) pair, equal to its `try`-body on every input since every
translated step is total; a reply containing neither marker yields empty
feedback and empty code; and for any fallible body, the `except` shell
degrades a raising run to the original reply as feedback with empty
code. -/
theorem parse_claude_response_total :
    (∀ r : Str, parse_claude_response r = parse_body r) ∧
    (∀ r : Str, containsSub r fbMarker = false → containsSub r codeMarker = false →
      parse_claude_response r = ([], [])) ∧
    (∀ (body : Str → Except PyExnInfo (Str × Str)) (r : Str) (e : PyExnInfo),
      body r = Except.error e → parse_with body r = (r, [])) := by
  refine ⟨fun r => rfl, ?_, ?_⟩
  · intro r h1 h2
    show parse_body r = ([], [])
    unfold parse_body
    simp [h1, h2]
  · intro body r e hb
    unfold parse_with
    rw [hb]

/-- C7 witness: a marker-free reply parses to empty feedback and empty
code, and a raising body degrades to the original reply with empty code. -/
theorem parse_claude_response_total_witness :
    parse_claude_response (strL "hello") = ([], []) ∧
      parse_with (fun _ => Except.error parseErrInfo) (strL "abc") =
        (strL "abc", []) :=
  ⟨parse_claude_response_total.2.1 (strL "hello") (by decide) (by decide),
   parse_claude_response_total.2.2 (fun _ => Except.error parseErrInfo) (strL "abc")
     parseErrInfo rfl⟩

/-- C10: running the snippet `x = 1; def f(): print(x); f()` the way
`execute_code` does — globals from the constructed namespace, locals a
distinct fresh empty mapping — makes the call to `f` fail with a
`NameError` on `x`, because the top-level bindings of `x` and `f` land in
the locals mapping (the globals stay empty) while the function body
resolves its free `x` against the globals only; running the same snippet
with a single namespace succeeds and prints `1`; and `execute_code`
surfaces the fault as an exception report starting with `NameError`. -/
theorem exec_locals_scoping_nameerror :
    exec_two_namespaces snippetC10 = MiniRes.nameError "x" ∧
    runStmts false 9 [MiniStmt.assign "x" 1,
        MiniStmt.defFun "f" [MiniStmt.printVar "x"]]
        { globals := [], locals := [], out := [] } =
      MiniRes.ok
        { globals := []
          locals := [("f", MiniVal.vfun [MiniStmt.printVar "x"]), ("x", MiniVal.vnat 1)]
          out := [] } ∧
    exec_one_namespace snippetC10 =
      MiniRes.ok
        { globals := [("f", MiniVal.vfun [MiniStmt.printVar "x"]), ("x", MiniVal.vnat 1)]
          locals := []
          out := [1] } ∧
    (execute_code true (RunOutcome.raises [] [] nameErrorC10) snippetC10Text sys0).1 =
      Except.ok ([], [], renderException nameErrorC10) :=
  ⟨rfl, rfl, rfl, rfl⟩

/-- Element `[0]` of a Python-style split is the text before the first
occurrence of the separator (the whole string when the separator is
absent). -/
theorem splitOnF_getD_zero (sep : Str) (f : Nat) (s : Str) :
    (splitOnF sep (f + 1) s).getD 0 [] = beforeFirst sep s := by
  unfold splitOnF beforeFirst
  cases firstOcc sep s <;> simp

/-- Wrapper version of `splitOnF_getD_zero` for `splitOnL`. -/
theorem splitOnL_getD_zero (sep s : Str) :
    (splitOnL sep s).getD 0 [] = beforeFirst sep s :=
  splitOnF_getD_zero sep s.length s

/-- Element `[1]` of a Python-style split on a separator that occurs is
the text after the first occurrence, truncated at the next occurrence. -/
theorem splitOnL_getD_one (sep s : Str) (h : containsSub s sep = true)
    (hne : sep ≠ []) :
    (splitOnL sep s).getD 1 [] = beforeFirst sep (afterFirst sep s) := by
  cases s with
  | nil =>
    exfalso
    unfold containsSub firstOcc at h
    simp [List.isEmpty_iff, hne] at h
  | cons c t =>
    obtain ⟨i, hi⟩ := Option.isSome_iff_exists.mp h
    show (splitOnF sep (t.length + 1 + 1) (c :: t)).getD 1 [] = _
    unfold splitOnF
    rw [hi]
    rw [List.getD_cons_succ]
    rw [splitOnF_getD_zero]
    unfold afterFirst
    rw [hi]

/-- C6 counterexample: the stated marker semantics ("text between the
first `---FEEDBACK---` and the first subsequent `---CODE---`", "everything
after the first `---CODE---`") disagree with the code's `split(...)[1]`
semantics on a reply with repeated markers: the code yields
`("A", "a")`, the stated semantics `("A---FEEDBACK---B", "a---CODE---b")`. -/
theorem parse_claude_response_markers_refuted : ¬ C6ClaimStatement := by
  intro h
  have hx := h c6Input
  have hne : parse_claude_response c6Input ≠ (claim_feedback c6Input, claim_code c6Input) := by
    decide
  exact hne hx

/-- C6 amended: for every reply, feedback is the text after the first
`---FEEDBACK---`, truncated at the next `---FEEDBACK---` (end of text if
none), then truncated at the first `---CODE---` within that segment, and
trimmed; when `---CODE---` occurs, code is the text between its first and
second occurrence (to end of text if no second), trimmed and passed
through the cleaner.  Markers are matched literally, case-sensitively,
first occurrence first.  The spec's example still parses to feedback
`"Good job"` and code `"print(1)"`. -/
theorem parse_claude_response_spec_amended :
    (∀ r : Str, parse_claude_response r = (spec_feedback r, spec_code r)) ∧
      parse_claude_response
          (strL "---FEEDBACK---\nGood job\n---CODE---\n```python\nprint(1)\n```") =
        (strL "Good job", strL "print(1)") := by
  constructor
  · intro r
    have hstep : parse_claude_response r = parse_body r := rfl
    rw [hstep]
    unfold parse_body spec_feedback spec_code
    by_cases h1 : containsSub r fbMarker = true
    · by_cases h2 : containsSub r codeMarker = true
      · simp only [h1, h2, if_true]
        rw [splitOnL_getD_one fbMarker r h1 (by decide),
          splitOnL_getD_one codeMarker r h2 (by decide),
          splitOnL_getD_zero]
      · rw [Bool.not_eq_true] at h2
        simp only [h1, h2, if_true, Bool.false_eq_true, if_false]
        rw [splitOnL_getD_one fbMarker r h1 (by decide), splitOnL_getD_zero]
    · rw [Bool.not_eq_true] at h1
      by_cases h2 : containsSub r codeMarker = true
      · simp only [h1, h2, if_true, Bool.false_eq_true, if_false]
        rw [splitOnL_getD_one codeMarker r h2 (by decide)]
      · rw [Bool.not_eq_true] at h2
        simp only [h1, h2, Bool.false_eq_true, if_false]
  · rfl

/-! ### Structural facts about the cleaner's scanners -/

/-- What `\s*\n` consumes leaves a suffix of the text. -/
theorem dropWsToLastNl_suffix : ∀ s r : Str, dropWsToLastNl s = some r → r <:+ s := by
  intro s
  induction s with
  | nil => intro r h; exact absurd h (by simp [dropWsToLastNl])
  | cons c t ih =>
    intro r h
    unfold dropWsToLastNl at h
    by_cases hc : isPySpace c = true
    · rw [if_pos hc] at h
      cases hdrop : dropWsToLastNl t with
      | some r' =>
        rw [hdrop] at h
        injection h with h
        subst h
        exact (ih r' hdrop).trans (List.suffix_cons c t)
      | none =>
        rw [hdrop] at h
        by_cases hnl : c = '\n'
        · rw [if_pos hnl] at h
          injection h with h
          subst h
          exact List.suffix_cons c t
        · rw [if_neg hnl] at h
          exact absurd h (by simp)
    · rw [if_neg hc] at h
      exact absurd h (by simp)

/-- A fence-with-language match leaves a suffix, and consumes at least the
nine characters of ` ```python `. -/
theorem matchPyFence_some {s r : Str} (h : matchPyFence s = some r) :
    r <:+ s ∧ r.length + 9 ≤ s.length := by
  unfold matchPyFence at h
  by_cases hp : (strL "```python").isPrefixOf s
  · rw [if_pos hp] at h
    have hsuf : r <:+ s.drop 9 := dropWsToLastNl_suffix _ _ h
    have hpre : strL "```python" <+: s := List.isPrefixOf_iff_prefix.mp hp
    have h9 : 9 ≤ s.length := hpre.length_le
    have hlen : r.length ≤ s.length - 9 := by
      have := hsuf.length_le
      simpa using this
    exact ⟨hsuf.trans (List.drop_suffix 9 s), by omega⟩
  · rw [if_neg hp] at h
    exact absurd h (by simp)

/-- A bare-fence match leaves a suffix and consumes at least three
characters. -/
theorem matchFence_some {s r : Str} (h : matchFence s = some r) :
    r <:+ s ∧ r.length + 3 ≤ s.length := by
  unfold matchFence at h
  by_cases hp : (strL "```").isPrefixOf s
  · rw [if_pos hp] at h
    injection h with h
    subst h
    have hpre : strL "```" <+: s := List.isPrefixOf_iff_prefix.mp hp
    have h3 : 3 ≤ s.length := hpre.length_le
    have hsuf : (s.drop 3).dropWhile isPySpace <:+ s.drop 3 := List.dropWhile_suffix _
    have hlen : ((s.drop 3).dropWhile isPySpace).length ≤ s.length - 3 := by
      have := hsuf.length_le
      simpa using this
    exact ⟨hsuf.trans (List.drop_suffix 3 s), by omega⟩
  · rw [if_neg hp] at h
    exact absurd h (by simp)

/-- A commented-fence match leaves a suffix and consumes at least four
characters. -/
theorem matchCmtFence_some {s r : Str} (h : matchCmtFence s = some r) :
    r <:+ s ∧ r.length + 4 ≤ s.length := by
  cases s with
  | nil => exact absurd h (by simp [matchCmtFence])
  | cons c t =>
    simp only [matchCmtFence] at h
    by_cases hc : c = '#'
    · rw [if_pos hc] at h
      by_cases hp : (strL "```").isPrefixOf (t.dropWhile isPySpace)
      · rw [if_pos hp] at h
        injection h with h
        subst h
        have hpre : strL "```" <+: t.dropWhile isPySpace := List.isPrefixOf_iff_prefix.mp hp
        have h3 : 3 ≤ (t.dropWhile isPySpace).length := hpre.length_le
        have h1 : ((t.dropWhile isPySpace).drop 3).dropWhile (fun d => d ≠ '\n') <:+
            (t.dropWhile isPySpace).drop 3 := List.dropWhile_suffix _
        have h2 : (t.dropWhile isPySpace).drop 3 <:+ t.dropWhile isPySpace :=
          List.drop_suffix 3 _
        have h4 : t.dropWhile isPySpace <:+ t := List.dropWhile_suffix _
        have hsuf : ((t.dropWhile isPySpace).drop 3).dropWhile (fun d => d ≠ '\n') <:+ t :=
          (h1.trans h2).trans h4
        refine ⟨hsuf.trans (List.suffix_cons c t), ?_⟩
        have l1 := h1.length_le
        have l4 := h4.length_le
        have la : ((t.dropWhile isPySpace).drop 3).length =
            (t.dropWhile isPySpace).length - 3 := by simp
        have lc : (c :: t).length = t.length + 1 := by simp
        omega
      · rw [if_neg hp] at h
        exact absurd h (by simp)
    · rw [if_neg hc] at h
      exact absurd h (by simp)

/-- A lazy bold-group match: the remainder is a suffix, the group content
consists of characters of the text, and the match consumes at least three
characters. -/
theorem matchBoldAfter_some :
    ∀ s cont rest : Str, matchBoldAfter s = some (cont, rest) →
      rest <:+ s ∧ cont ⊆ s ∧ rest.length + 3 ≤ s.length := by
  intro s
  induction s with
  | nil => intro cont rest h; exact absurd h (by simp [matchBoldAfter])
  | cons c t ih =>
    intro cont rest h
    unfold matchBoldAfter at h
    by_cases hnl : c = '\n'
    · rw [if_pos hnl] at h
      exact absurd h (by simp)
    · rw [if_neg hnl] at h
      by_cases hp : (strL "**").isPrefixOf t
      · rw [if_pos hp] at h
        injection h with h
        injection h with h1 h2
        subst h1
        subst h2
        have hpre : strL "**" <+: t := List.isPrefixOf_iff_prefix.mp hp
        have h2t : 2 ≤ t.length := hpre.length_le
        refine ⟨(List.drop_suffix 2 t).trans (List.suffix_cons c t), ?_, ?_⟩
        · intro a ha
          simp at ha
          simp [ha]
        · have hl : (t.drop 2).length = t.length - 2 := by simp
          simp only [List.length_cons]
          omega
      · rw [if_neg hp] at h
        cases hrec : matchBoldAfter t with
        | none => rw [hrec] at h; exact absurd h (by simp)
        | some p =>
          rw [hrec] at h
          obtain ⟨cont', rest'⟩ := p
          obtain ⟨hsuf, hsub, hlen⟩ := ih cont' rest' hrec
          injection h with h
          injection h with h1 h2
          subst h1
          subst h2
          refine ⟨hsuf.trans (List.suffix_cons c t), ?_, ?_⟩
          · intro a ha
            rcases List.mem_cons.mp ha with rfl | ha
            · exact List.mem_cons_self a t
            · exact List.mem_cons_of_mem c (hsub ha)
          · simp only [List.length_cons]
            omega

/-- A lazy italic-group match: the remainder is a suffix, the group content
consists of characters of the text, and the match consumes at least two
characters. -/
theorem matchItalAfter_some :
    ∀ s cont rest : Str, matchItalAfter s = some (cont, rest) →
      rest <:+ s ∧ cont ⊆ s ∧ rest.length + 2 ≤ s.length := by
  intro s
  induction s with
  | nil => intro cont rest h; exact absurd h (by simp [matchItalAfter])
  | cons c t ih =>
    intro cont rest h
    unfold matchItalAfter at h
    by_cases hnl : c = '\n'
    · rw [if_pos hnl] at h
      exact absurd h (by simp)
    · rw [if_neg hnl] at h
      by_cases hp : ['*'].isPrefixOf t
      · rw [if_pos hp] at h
        injection h with h
        injection h with h1 h2
        subst h1
        subst h2
        have hpre : ['*'] <+: t := List.isPrefixOf_iff_prefix.mp hp
        have h1t : 1 ≤ t.length := hpre.length_le
        refine ⟨(List.drop_suffix 1 t).trans (List.suffix_cons c t), ?_, ?_⟩
        · intro a ha
          simp at ha
          simp [ha]
        · have hl : (t.drop 1).length = t.length - 1 := by simp
          simp only [List.length_cons]
          omega
      · rw [if_neg hp] at h
        cases hrec : matchItalAfter t with
        | none => rw [hrec] at h; exact absurd h (by simp)
        | some p =>
          rw [hrec] at h
          obtain ⟨cont', rest'⟩ := p
          obtain ⟨hsuf, hsub, hlen⟩ := ih cont' rest' hrec
          injection h with h
          injection h with h1 h2
          subst h1
          subst h2
          refine ⟨hsuf.trans (List.suffix_cons c t), ?_, ?_⟩
          · intro a ha
            rcases List.mem_cons.mp ha with rfl | ha
            · exact List.mem_cons_self a t
            · exact List.mem_cons_of_mem c (hsub ha)
          · simp only [List.length_cons]
            omega

/-- The two-backtick pattern in explicit list form. -/
theorem strL_twoTicks : strL "``" = [btick, btick] := by decide

/-- The three-backtick pattern in explicit list form. -/
theorem strL_threeTicks : strL "```" = [btick, btick, btick] := by decide

/-- Triple-freeness passes to contiguous substrings. -/
theorem noTriple_of_within {s t : Str} (h : t <:+: s) (hs : NoTriple s) : NoTriple t :=
  fun hi => hs (hi.trans h)

/-- The empty string has no triple fence. -/
theorem noTriple_nil : NoTriple ([] : Str) := by
  intro hi
  have := hi.length_le
  simp [strL] at this

/-- Characters of the `subPyFenceF` output come from the input. -/
theorem subPyFenceF_subset : ∀ (f : Nat) (s : Str) (a : Char),
    a ∈ subPyFenceF f s → a ∈ s := by
  intro f
  induction f with
  | zero => intro s a ha; exact ha
  | succ f ih =>
    intro s a ha
    cases s with
    | nil => simp [subPyFenceF] at ha
    | cons c t =>
      simp only [subPyFenceF] at ha
      cases hm : matchPyFence (c :: t) with
      | some rest =>
        rw [hm] at ha
        exact (matchPyFence_some hm).1.subset (ih rest a ha)
      | none =>
        rw [hm] at ha
        rcases List.mem_cons.mp ha with rfl | ha
        · exact List.mem_cons_self a t
        · exact List.mem_cons_of_mem c (ih t a ha)

/-- Characters of the `subFenceF` output come from the input. -/
theorem subFenceF_subset : ∀ (f : Nat) (s : Str) (a : Char),
    a ∈ subFenceF f s → a ∈ s := by
  intro f
  induction f with
  | zero => intro s a ha; exact ha
  | succ f ih =>
    intro s a ha
    cases s with
    | nil => simp [subFenceF] at ha
    | cons c t =>
      simp only [subFenceF] at ha
      cases hm : matchFence (c :: t) with
      | some rest =>
        rw [hm] at ha
        exact (matchFence_some hm).1.subset (ih rest a ha)
      | none =>
        rw [hm] at ha
        rcases List.mem_cons.mp ha with rfl | ha
        · exact List.mem_cons_self a t
        · exact List.mem_cons_of_mem c (ih t a ha)

/-- Stripping yields a contiguous substring. -/
theorem stripL_within (s : Str) : stripL s <:+: s := by
  unfold stripL
  have h1 : s.dropWhile isPySpace <:+ s := List.dropWhile_suffix _
  have h2 : (s.dropWhile isPySpace).reverse.dropWhile isPySpace <:+
      (s.dropWhile isPySpace).reverse := List.dropWhile_suffix _
  have h3 : ((s.dropWhile isPySpace).reverse.dropWhile isPySpace).reverse <+:
      s.dropWhile isPySpace := by
    rw [← List.reverse_reverse (s.dropWhile isPySpace)] at h2 ⊢
    rw [List.reverse_reverse]
    exact List.reverse_prefix.mpr (by rwa [List.reverse_reverse] at h2)
  exact h3.isInfix.trans h1.isInfix

/-- No-match lemma: a triple-free text has no fence-with-language match. -/
theorem matchPyFence_eq_none {s : Str} (hs : NoTriple s) : matchPyFence s = none := by
  have hnp : ¬ (strL "```python").isPrefixOf s = true := by
    intro hp
    have h1 : strL "```python" <+: s := List.isPrefixOf_iff_prefix.mp hp
    have h2 : strL "```" <+: strL "```python" := by decide
    exact hs (h2.trans h1).isInfix
  simp [matchPyFence, hnp]

/-- No-match lemma: a triple-free text has no bare-fence match. -/
theorem matchFence_eq_none {s : Str} (hs : NoTriple s) : matchFence s = none := by
  have hnp : ¬ (strL "```").isPrefixOf s = true := by
    intro hp
    exact hs ( List.isPrefixOf_iff_prefix.mp hp).isInfix
  simp [matchFence, hnp]

/-- No-match lemma: a triple-free text has no commented-fence match. -/
theorem matchCmtFence_eq_none {s : Str} (hs : NoTriple s) : matchCmtFence s = none := by
  cases s with
  | nil => rfl
  | cons c t =>
    simp only [matchCmtFence]
    by_cases hc : c = '#'
    · rw [if_pos hc]
      have hnp : ¬ (strL "```").isPrefixOf (t.dropWhile isPySpace) = true := by
        intro hp
        have h1 : strL "```" <+: t.dropWhile isPySpace :=
          List.isPrefixOf_iff_prefix.mp hp
        have h2 : t.dropWhile isPySpace <:+ t := List.dropWhile_suffix _
        exact hs (h1.isInfix.trans ((h2.trans (List.suffix_cons c t)).isInfix))
      rw [if_neg hnp]
    · rw [if_neg hc]

/-- On triple-free text the fence-with-language substitution is the
identity. -/
theorem subPyFenceF_of_noTriple : ∀ (f : Nat) (s : Str),
    NoTriple s → subPyFenceF f s = s := by
  intro f
  induction f with
  | zero => intro s _; rfl
  | succ f ih =>
    intro s hs
    cases s with
    | nil => rfl
    | cons c t =>
      simp only [subPyFenceF, matchPyFence_eq_none hs]
      rw [ih t (noTriple_of_within (List.suffix_cons c t).isInfix hs)]

/-- On triple-free text the bare-fence substitution is the identity. -/
theorem subFenceF_of_noTriple : ∀ (f : Nat) (s : Str),
    NoTriple s → subFenceF f s = s := by
  intro f
  induction f with
  | zero => intro s _; rfl
  | succ f ih =>
    intro s hs
    cases s with
    | nil => rfl
    | cons c t =>
      simp only [subFenceF, matchFence_eq_none hs]
      rw [ih t (noTriple_of_within (List.suffix_cons c t).isInfix hs)]

/-- On triple-free text the commented-fence substitution is the identity,
from any line-start state. -/
theorem subCmtFenceF_of_noTriple : ∀ (f : Nat) (b : Bool) (s : Str),
    NoTriple s → subCmtFenceF f b s = s := by
  intro f
  induction f with
  | zero => intro b s _; rfl
  | succ f ih =>
    intro b s hs
    cases s with
    | nil => rfl
    | cons c t =>
      have ht : NoTriple t := noTriple_of_within (List.suffix_cons c t).isInfix hs
      cases b with
      | true =>
        simp only [subCmtFenceF, matchCmtFence_eq_none hs]
        rw [ih (c = '\n') t ht]
        simp
      | false =>
        simp only [subCmtFenceF]
        rw [ih (c = '\n') t ht]
        simp

/-- The bare-fence scan preserves a non-backtick head character. -/
theorem subFenceF_head_ne (f : Nat) (d : Char) (v : Str) (hd : d ≠ btick) :
    (subFenceF f (d :: v)).head? = some d := by
  cases f with
  | zero => rfl
  | succ f =>
    have hm : matchFence (d :: v) = none := by
      have hnp : ¬ (strL "```").isPrefixOf (d :: v) = true := by
        intro hp
        obtain ⟨u, hu⟩ := List.isPrefixOf_iff_prefix.mp hp
        rw [strL_threeTicks] at hu
        injection hu with h1 _
        exact hd h1.symm
      simp [matchFence, hnp]
    simp [subFenceF, hm]

/-- The bare-fence scan cannot create a leading double backtick. -/
theorem subFenceF_no_twoTick : ∀ (f : Nat) (t : Str),
    ¬ strL "``" <+: t → ¬ strL "``" <+: subFenceF f t := by
  intro f
  induction f with
  | zero => intro t h; exact h
  | succ f ih =>
    intro t h
    cases t with
    | nil =>
      show ¬ strL "``" <+: subFenceF (f + 1) []
      simp only [subFenceF]
      intro hp
      have := List.prefix_nil.mp hp
      rw [strL_twoTicks] at this
      exact List.noConfusion this
    | cons c u =>
      have hm : matchFence (c :: u) = none := by
        have hnp : ¬ (strL "```").isPrefixOf (c :: u) = true := by
          intro hp
          obtain ⟨w, hw⟩ := List.isPrefixOf_iff_prefix.mp hp
          rw [strL_threeTicks] at hw
          injection hw with h1 h2
          apply h
          rw [strL_twoTicks]
          exact ⟨btick :: w, by rw [← h1, ← h2]; rfl⟩
        simp [matchFence, hnp]
      simp only [subFenceF, hm]
      intro hp
      obtain ⟨w, hw⟩ := hp
      rw [strL_twoTicks] at hw
      injection hw with h1 h2
      subst h1
      cases u with
      | nil =>
        have : subFenceF f [] = [] := by cases f <;> rfl
        rw [this] at h2
        exact List.noConfusion h2
      | cons x u' =>
        by_cases hx : x = btick
        · apply h
          rw [strL_twoTicks]
          exact ⟨u', by rw [hx]; rfl⟩
        · have hhd := subFenceF_head_ne f x u' hx
          rw [← h2] at hhd
          injection hhd with hhd
          exact hx (hhd.symm ▸ rfl)

/-- After the bare-fence substitution no three consecutive backticks
remain (with enough fuel, i.e. at least the input length). -/
theorem noTriple_subFenceF : ∀ (f : Nat) (s : Str),
    s.length ≤ f → NoTriple (subFenceF f s) := by
  intro f
  induction f with
  | zero =>
    intro s hl
    have hs : s = [] := List.length_eq_zero.mp (Nat.le_zero.mp hl)
    subst hs
    exact noTriple_nil
  | succ f ih =>
    intro s hl
    cases s with
    | nil =>
      show NoTriple (subFenceF (f + 1) [])
      simp only [subFenceF]
      exact noTriple_nil
    | cons c t =>
      cases hm : matchFence (c :: t) with
      | some rest =>
        simp only [subFenceF, hm]
        apply ih
        have hlen := (matchFence_some hm).2
        simp only [List.length_cons] at hlen hl
        omega
      | none =>
        simp only [subFenceF, hm]
        intro hi
        rcases List.infix_cons_iff.mp hi with hpre | hinf
        · obtain ⟨w, hw⟩ := hpre
          rw [strL_threeTicks] at hw
          injection hw with h1 h2
          have hnt : ¬ strL "``" <+: t := by
            intro hp2
            obtain ⟨w', hw'⟩ := hp2
            rw [strL_twoTicks] at hw'
            have hpm : (strL "```").isPrefixOf (c :: t) = true := by
              apply List.isPrefixOf_iff_prefix.mpr
              refine ⟨w', ?_⟩
              rw [strL_threeTicks, ← h1, ← hw']
              rfl
            simp [matchFence, hpm] at hm
          have h2' : strL "``" <+: subFenceF f t := by
            rw [strL_twoTicks]
            exact ⟨w, h2⟩
          exact subFenceF_no_twoTick f t hnt h2'
        · have ht : t.length ≤ f := by
            simp only [List.length_cons] at hl
            omega
          exact ih t ht hinf

/-- Wrapper: the bare-fence substitution output is triple-free. -/
theorem noTriple_subFence (s : Str) : NoTriple (subFence s) :=
  noTriple_subFenceF s.length s le_rfl

/-- The head surviving a `dropWhile` fails the dropped predicate. -/
theorem head_dropWhile_not {p : Char → Bool} : ∀ (l : Str) (c : Char),
    (l.dropWhile p).head? = some c → p c = false := by
  intro l
  induction l with
  | nil => intro c h; simp [List.dropWhile] at h
  | cons a t ih =>
    intro c h
    rw [List.dropWhile_cons] at h
    by_cases hp : p a = true
    · rw [if_pos hp] at h
      exact ih c h
    · rw [if_neg hp] at h
      injection h with h
      subst h
      exact Bool.not_eq_true _ ▸ hp

/-- A non-empty suffix has the same last element as the whole list. -/
theorem getLast?_of_suffix {u w : Str} (h : u <:+ w) (hne : u ≠ []) :
    u.getLast? = w.getLast? := by
  obtain ⟨v, hv⟩ := h
  subst hv
  rw [← List.head?_reverse, ← List.head?_reverse, List.reverse_append]
  rw [List.head?_append_of_ne_nil]
  simp [hne]

/-- The stripped text does not start with whitespace. -/
theorem stripL_noSpaceStart (s : Str) : NoSpaceStart (stripL s) := by
  intro c hc
  unfold stripL at hc
  rw [List.head?_reverse] at hc
  set a := s.dropWhile isPySpace with ha
  set u := a.reverse.dropWhile isPySpace with hu
  have hune : u ≠ [] := by
    intro hnil
    rw [hnil] at hc
    exact Option.noConfusion hc
  have hsuf : u <:+ a.reverse := List.dropWhile_suffix _
  have hlast : u.getLast? = a.reverse.getLast? := getLast?_of_suffix hsuf hune
  rw [hlast, List.getLast?_reverse] at hc
  exact head_dropWhile_not s c hc

/-- The stripped text does not end with whitespace. -/
theorem stripL_noSpaceEnd (s : Str) : NoSpaceEnd (stripL s) := by
  intro c hc
  unfold stripL at hc
  rw [List.getLast?_reverse] at hc
  exact head_dropWhile_not _ c hc

/-- A text that neither starts nor ends with whitespace is fixed by
`strip`. -/
theorem stripL_eq_self {s : Str} (h1 : NoSpaceStart s) (h2 : NoSpaceEnd s) :
    stripL s = s := by
  have ha : s.dropWhile isPySpace = s := by
    cases s with
    | nil => rfl
    | cons c t =>
      rw [List.dropWhile_cons, if_neg]
      simp [h1 c rfl]
  unfold stripL
  rw [ha]
  have hb : s.reverse.dropWhile isPySpace = s.reverse := by
    cases hr : s.reverse with
    | nil => rfl
    | cons c t =>
      rw [List.dropWhile_cons, if_neg]
      have hlast : s.getLast? = some c := by
        rw [← List.head?_reverse, hr]
        rfl
      simp [h2 c hlast]
  rw [hb, List.reverse_reverse]

/-- The text after the last newline is a suffix. -/
theorem afterLastNl_suffix (s : Str) : afterLastNl s <:+ s := by
  unfold afterLastNl
  have h : s.reverse.takeWhile (fun c => c ≠ '\n') <+: s.reverse :=
    List.takeWhile_prefix _
  have h2 := List.reverse_suffix.mpr h
  rwa [List.reverse_reverse] at h2

/-- The text after the last newline contains no newline. -/
theorem afterLastNl_no_nl (s : Str) : '\n' ∉ afterLastNl s := by
  intro hm
  rw [afterLastNl, List.mem_reverse] at hm
  have := List.mem_takeWhile_imp hm
  simp at this

/-- Newline count of the text after the last newline is zero. -/
theorem nlCount_afterLastNl (s : Str) : nlCount (afterLastNl s) = 0 := by
  apply List.countP_eq_zero.mpr
  intro a ha hp
  simp only [decide_eq_true_eq] at hp
  subst hp
  exact afterLastNl_no_nl s ha

/-- When a whitespace run holds at least two newlines, cutting at the last
newline drops at least two characters. -/
theorem afterLastNl_length {s : Str} (h2 : 2 ≤ nlCount s) :
    (afterLastNl s).length + 2 ≤ s.length := by
  have hsplit := List.takeWhile_append_dropWhile (fun c => c ≠ '\n') s.reverse
  have hc0 : nlCount (s.reverse.takeWhile (fun c => c ≠ '\n')) = 0 := by
    apply List.countP_eq_zero.mpr
    intro a ha hp
    simp only [decide_eq_true_eq] at hp
    subst hp
    have := List.mem_takeWhile_imp ha
    simp at this
  have hcount : nlCount s.reverse = nlCount (s.reverse.takeWhile (fun c => c ≠ '\n')) +
      nlCount (s.reverse.dropWhile (fun c => c ≠ '\n')) := by
    conv_lhs => rw [← hsplit]
    exact List.countP_append _ _ _
  have hrev : nlCount s.reverse = nlCount s := List.countP_reverse _ _
  have hlen : s.reverse.length = (s.reverse.takeWhile (fun c => c ≠ '\n')).length +
      (s.reverse.dropWhile (fun c => c ≠ '\n')).length := by
    conv_lhs => rw [← hsplit]
    exact List.length_append _ _
  have hle := @List.countP_le_length Char (fun c : Char => decide (c = '\n'))
    (s.reverse.dropWhile (fun c => c ≠ '\n'))
  have hlen2 : (afterLastNl s).length = (s.reverse.takeWhile (fun c => c ≠ '\n')).length := by
    rw [afterLastNl, List.length_reverse]
  have hlr : s.reverse.length = s.length := List.length_reverse s
  unfold nlCount at h2 hc0 hcount hrev
  omega

/-- A `takeWhile` passes over a block that wholly satisfies the predicate. -/
theorem takeWhile_append_all {p : Char → Bool} :
    ∀ (A B : Str), (∀ a ∈ A, p a = true) →
      (A ++ B).takeWhile p = A ++ B.takeWhile p := by
  intro A
  induction A with
  | nil => intro B _; rfl
  | cons a A' ih =>
    intro B hall
    rw [List.cons_append, List.takeWhile_cons, if_pos (hall a (List.mem_cons_self a A'))]
    rw [ih B (fun x hx => hall x (List.mem_cons_of_mem a hx)), List.cons_append]

/-- The blank-line scan maps the empty text to itself. -/
theorem subBlankF_nil : ∀ f : Nat, subBlankF f [] = [] := by
  intro f
  cases f <;> rfl

/-- The blank-line scan never empties a non-empty text. -/
theorem subBlankF_ne_nil : ∀ (f : Nat) (s : Str), s ≠ [] → subBlankF f s ≠ [] := by
  intro f s hs
  cases f with
  | zero => exact hs
  | succ f =>
    cases s with
    | nil => exact absurd rfl hs
    | cons c t =>
      simp only [subBlankF]
      by_cases hc : c = '\n'
      · rw [if_pos hc]
        by_cases h2 : 2 ≤ nlCount (t.takeWhile isPySpace)
        · rw [if_pos h2]
          exact List.cons_ne_nil _ _
        · rw [if_neg h2]
          exact List.cons_ne_nil _ _
      · rw [if_neg hc]
        exact List.cons_ne_nil _ _

/-- The blank-line scan's leading whitespace is empty when the input's
head is not whitespace. -/
theorem takeWhile_subBlankF_eq_nil :
    ∀ (f : Nat) (rest : Str),
      (rest = [] ∨ ∃ d v, rest = d :: v ∧ isPySpace d = false) →
      (subBlankF f rest).takeWhile isPySpace = [] := by
  intro f rest hrest
  rcases hrest with rfl | ⟨d, v, rfl, hd⟩
  · rw [subBlankF_nil]
    rfl
  · cases f with
    | zero =>
      show (List.takeWhile isPySpace (d :: v)) = []
      rw [List.takeWhile_cons, if_neg (by simp [hd])]
    | succ f =>
      have hdn : ¬ d = '\n' := by
        intro h
        subst h
        simp [isPySpace] at hd
      simp only [subBlankF, if_neg hdn]
      rw [List.takeWhile_cons, if_neg (by simp [hd])]

/-- The blank-line scan copies a whitespace block holding at most one
newline when the text that follows starts with a non-whitespace character
(or is empty). -/
theorem subBlankF_ws_block :
    ∀ (run : Str) (f : Nat) (rest : Str),
      (∀ c ∈ run, isPySpace c = true) → nlCount run ≤ 1 →
      (rest = [] ∨ ∃ d v, rest = d :: v ∧ isPySpace d = false) →
      run.length ≤ f →
      subBlankF f (run ++ rest) = run ++ subBlankF (f - run.length) rest := by
  intro run
  induction run with
  | nil =>
    intro f rest _ _ _ _
    simp
  | cons c run' ih =>
    intro f rest hws hnl hrest hlen
    cases f with
    | zero =>
      exfalso
      simp only [List.length_cons] at hlen
      omega
    | succ f =>
      have hcw : isPySpace c = true := hws c (List.mem_cons_self c run')
      have hall' : ∀ a ∈ run', isPySpace a = true :=
        fun a ha => hws a (List.mem_cons_of_mem c ha)
      have htw : (run' ++ rest).takeWhile isPySpace = run' := by
        rw [takeWhile_append_all run' rest hall']
        rcases hrest with rfl | ⟨d, v, rfl, hd⟩
        · simp
        · rw [List.takeWhile_cons, if_neg (by simp [hd])]
          simp
      have hlen' : run'.length ≤ f := by
        simp only [List.length_cons] at hlen
        omega
      have hfs : f + 1 - (c :: run').length = f - run'.length := by
        simp only [List.length_cons]
        omega
      rw [List.cons_append]
      by_cases hcn : c = '\n'
      · have hnl' : ¬ 2 ≤ nlCount run' := by
          have : nlCount (c :: run') = nlCount run' + 1 := by
            unfold nlCount
            rw [List.countP_cons]
            simp [hcn]
          unfold nlCount at hnl this ⊢
          omega
        simp only [subBlankF, if_pos hcn, htw, if_neg hnl']
        rw [ih f rest hall' (by unfold nlCount at hnl ⊢; rw [List.countP_cons] at hnl; omega)
          hrest hlen']
        rw [hfs, List.cons_append]
      · simp only [subBlankF, if_neg hcn]
        rw [ih f rest hall' (by unfold nlCount at hnl ⊢; rw [List.countP_cons] at hnl; omega)
          hrest hlen']
        rw [hfs, List.cons_append]

/-- The dropped-prefix remainder is empty or starts with non-whitespace. -/
theorem dropWhile_head_cond (t : Str) :
    t.dropWhile isPySpace = [] ∨
      ∃ d v, t.dropWhile isPySpace = d :: v ∧ isPySpace d = false := by
  cases h : t.dropWhile isPySpace with
  | nil => exact Or.inl rfl
  | cons d v =>
    exact Or.inr ⟨d, v, rfl, head_dropWhile_not t d (by rw [h]; rfl)⟩

/-- Collapsedness passes to the tail. -/
theorem collapsed_tail {c : Char} {t : Str} (h : Collapsed (c :: t)) : Collapsed t := by
  intro pre suf heq
  exact h (c :: pre) suf (by rw [heq, List.cons_append])

/-- A text with no remaining blank-run match is fixed by the blank-line
scan. -/
theorem subBlankF_of_collapsed : ∀ (f : Nat) (s : Str),
    Collapsed s → subBlankF f s = s := by
  intro f
  induction f with
  | zero => intro s _; rfl
  | succ f ih =>
    intro s hs
    cases s with
    | nil => rfl
    | cons c t =>
      by_cases hcn : c = '\n'
      · have h1 : nlCount (t.takeWhile isPySpace) ≤ 1 := by
          apply hs [] t
          rw [hcn]
          rfl
        have h2 : ¬ 2 ≤ nlCount (t.takeWhile isPySpace) := by omega
        simp only [subBlankF, if_pos hcn, if_neg h2]
        rw [ih t (collapsed_tail hs)]
      · simp only [subBlankF, if_neg hcn]
        rw [ih t (collapsed_tail hs)]

/-- The blank-line scan's output has no remaining blank-run match (with
fuel at least the input length). -/
theorem collapsed_subBlankF : ∀ (f : Nat) (s : Str),
    s.length ≤ f → Collapsed (subBlankF f s) := by
  intro f
  induction f with
  | zero =>
    intro s hl pre suf heq
    have hs : s = [] := List.length_eq_zero.mp (Nat.le_zero.mp hl)
    subst hs
    rw [show subBlankF 0 [] = [] from rfl] at heq
    exact absurd heq (by simp)
  | succ f ih =>
    intro s hl
    cases s with
    | nil =>
      intro pre suf heq
      rw [show subBlankF (f + 1) [] = [] from rfl] at heq
      exact absurd heq (by simp)
    | cons c t =>
      have hlt : t.length ≤ f := by
        simp only [List.length_cons] at hl
        omega
      by_cases hcn : c = '\n'
      · have hsplit : t.takeWhile isPySpace ++ t.dropWhile isPySpace = t :=
          List.takeWhile_append_dropWhile _ _
        have hallrun : ∀ a ∈ t.takeWhile isPySpace, isPySpace a = true :=
          fun a ha => List.mem_takeWhile_imp ha
        have hrestc := dropWhile_head_cond t
        have hrunlen : (t.takeWhile isPySpace).length ≤ t.length :=
          ( List.takeWhile_prefix _).length_le
        by_cases h2 : 2 ≤ nlCount (t.takeWhile isPySpace)
        · have hallv : ∀ a ∈ afterLastNl (t.takeWhile isPySpace), isPySpace a = true :=
            fun a ha => hallrun a ((afterLastNl_suffix _).subset ha)
          have hnlv : nlCount (afterLastNl (t.takeWhile isPySpace)) = 0 :=
            nlCount_afterLastNl _
          have hvlen : (afterLastNl (t.takeWhile isPySpace)).length + 2 ≤
              (t.takeWhile isPySpace).length := afterLastNl_length h2
          have hlensplit : (t.takeWhile isPySpace).length +
              (t.dropWhile isPySpace).length = t.length := by
            conv_rhs => rw [← hsplit]
            exact (List.length_append _ _).symm
          have hremlen : (afterLastNl (t.takeWhile isPySpace) ++
              t.dropWhile isPySpace).length ≤ f := by
            rw [List.length_append]
            omega
          have hvf : (afterLastNl (t.takeWhile isPySpace)).length ≤ f := by omega
          have hY : subBlankF f (afterLastNl (t.takeWhile isPySpace) ++
              t.dropWhile isPySpace) =
              afterLastNl (t.takeWhile isPySpace) ++
                subBlankF (f - (afterLastNl (t.takeWhile isPySpace)).length)
                  (t.dropWhile isPySpace) :=
            subBlankF_ws_block _ f _ hallv (by omega) hrestc hvf
          simp only [subBlankF, if_pos hcn, if_pos h2]
          intro pre suf heq
          cases pre with
          | nil =>
            rw [List.nil_append] at heq
            injection heq with _ heq2
            subst heq2
            rw [List.takeWhile_cons, if_pos (by simp [isPySpace]), hY]
            rw [takeWhile_append_all _ _ hallv, takeWhile_subBlankF_eq_nil _ _ hrestc]
            unfold nlCount
            rw [List.countP_cons]
            simp only [List.append_nil]
            unfold nlCount at hnlv
            simp [hnlv]
          | cons p0 pre' =>
            rw [List.cons_append] at heq
            injection heq with hp0 heq2
            cases pre' with
            | nil =>
              rw [List.nil_append] at heq2
              injection heq2 with _ heq3
              subst heq3
              rw [hY, takeWhile_append_all _ _ hallv,
                takeWhile_subBlankF_eq_nil _ _ hrestc]
              unfold nlCount
              unfold nlCount at hnlv
              simp [hnlv]
            | cons p1 pre'' =>
              rw [List.cons_append] at heq2
              injection heq2 with hp1 heq3
              exact ih (afterLastNl (t.takeWhile isPySpace) ++ t.dropWhile isPySpace)
                hremlen pre'' suf heq3
        · have hrun1 : nlCount (t.takeWhile isPySpace) ≤ 1 := by omega
          have hrunf : (t.takeWhile isPySpace).length ≤ f := by omega
          have hT : subBlankF f t =
              t.takeWhile isPySpace ++
                subBlankF (f - (t.takeWhile isPySpace).length)
                  (t.dropWhile isPySpace) := by
            conv_lhs => rw [← hsplit]
            exact subBlankF_ws_block _ f _ hallrun hrun1 hrestc hrunf
          simp only [subBlankF, if_pos hcn, if_neg h2]
          intro pre suf heq
          cases pre with
          | nil =>
            rw [List.nil_append] at heq
            injection heq with _ heq2
            subst heq2
            rw [hT, takeWhile_append_all _ _ hallrun,
              takeWhile_subBlankF_eq_nil _ _ hrestc]
            unfold nlCount
            unfold nlCount at hrun1
            simpa using hrun1
          | cons p0 pre' =>
            rw [List.cons_append] at heq
            injection heq with hp0 heq2
            exact ih t hlt pre' suf heq2
      · simp only [subBlankF, if_neg hcn]
        intro pre suf heq
        cases pre with
        | nil =>
          rw [List.nil_append] at heq
          injection heq with hc _
          exact absurd hc hcn
        | cons p0 pre' =>
          rw [List.cons_append] at heq
          injection heq with hp0 heq2
          exact ih t hlt pre' suf heq2

/-- Characters of the blank-line scan output come from the input or are
newlines. -/
theorem subBlankF_subset : ∀ (f : Nat) (s : Str) (a : Char),
    a ∈ subBlankF f s → a ∈ s ∨ a = '\n' := by
  intro f
  induction f with
  | zero => intro s a ha; exact Or.inl ha
  | succ f ih =>
    intro s a ha
    cases s with
    | nil =>
      rw [show subBlankF (f + 1) [] = [] from rfl] at ha
      exact absurd ha (List.not_mem_nil a)
    | cons c t =>
      simp only [subBlankF] at ha
      by_cases hcn : c = '\n'
      · rw [if_pos hcn] at ha
        by_cases h2 : 2 ≤ nlCount (t.takeWhile isPySpace)
        · rw [if_pos h2] at ha
          rcases List.mem_cons.mp ha with rfl | ha
          · exact Or.inr rfl
          rcases List.mem_cons.mp ha with rfl | ha
          · exact Or.inr rfl
          rcases ih _ a ha with hmem | hnl
          · left
            apply List.mem_cons_of_mem
            rcases List.mem_append.mp hmem with hv | hr
            · have h1 : a ∈ t.takeWhile isPySpace := (afterLastNl_suffix _).subset hv
              exact ( List.takeWhile_prefix isPySpace).subset h1
            · exact (List.dropWhile_suffix isPySpace).subset hr
          · exact Or.inr hnl
        · rw [if_neg h2] at ha
          rcases List.mem_cons.mp ha with rfl | ha
          · exact Or.inl (List.mem_cons_self _ _)
          rcases ih t a ha with h | h
          · exact Or.inl (List.mem_cons_of_mem c h)
          · exact Or.inr h
      · rw [if_neg hcn] at ha
        rcases List.mem_cons.mp ha with rfl | ha
        · exact Or.inl (List.mem_cons_self _ _)
        rcases ih t a ha with h | h
        · exact Or.inl (List.mem_cons_of_mem c h)
        · exact Or.inr h

/-- The blank-line scan's head is the input's head or a newline; in
particular it is never a backtick it did not start with. -/
theorem subBlankF_head_ne (f : Nat) (v : Str) (hv : v.head? ≠ some btick) :
    (subBlankF f v).head? ≠ some btick := by
  cases f with
  | zero => exact hv
  | succ f =>
    cases v with
    | nil =>
      rw [show subBlankF (f + 1) [] = [] from rfl]
      simp
    | cons d w =>
      simp only [subBlankF]
      by_cases hdn : d = '\n'
      · rw [if_pos hdn]
        by_cases h2 : 2 ≤ nlCount (w.takeWhile isPySpace)
        · rw [if_pos h2, List.head?_cons]
          intro hh
          injection hh with hh
          exact absurd hh (by decide)
        · rw [if_neg h2, List.head?_cons]
          rw [List.head?_cons] at hv
          exact hv
      · rw [if_neg hdn, List.head?_cons]
        rw [List.head?_cons] at hv
        exact hv

/-- The blank-line scan cannot create a leading double backtick. -/
theorem subBlankF_no_twoTick (f : Nat) (t : Str) (h : ¬ strL "``" <+: t) :
    ¬ strL "``" <+: subBlankF f t := by
  cases f with
  | zero => exact h
  | succ f =>
    cases t with
    | nil =>
      rw [show subBlankF (f + 1) [] = [] from rfl]
      intro hp
      have := List.prefix_nil.mp hp
      rw [strL_twoTicks] at this
      exact List.noConfusion this
    | cons d w =>
      simp only [subBlankF]
      by_cases hdn : d = '\n'
      · rw [if_pos hdn]
        by_cases h2 : 2 ≤ nlCount (w.takeWhile isPySpace)
        · rw [if_pos h2]
          intro hp
          obtain ⟨u, hu⟩ := hp
          rw [strL_twoTicks] at hu
          injection hu with h1 _
          exact absurd h1 (by decide)
        · rw [if_neg h2]
          intro hp
          obtain ⟨u, hu⟩ := hp
          rw [strL_twoTicks] at hu
          injection hu with h1 _
          rw [hdn] at h1
          exact absurd h1 (by decide)
      · rw [if_neg hdn]
        intro hp
        obtain ⟨u, hu⟩ := hp
        rw [strL_twoTicks] at hu
        injection hu with h1 h2
        have hw : w.head? ≠ some btick := by
          intro hwh
          apply h
          rw [strL_twoTicks]
          cases w with
          | nil => exact absurd hwh (by simp)
          | cons x w' =>
            rw [List.head?_cons] at hwh
            injection hwh with hwh
            exact ⟨w', by rw [← h1, hwh]; rfl⟩
        exact subBlankF_head_ne f w hw (by rw [← h2]; rfl)

/-- The blank-line scan preserves triple-freeness. -/
theorem noTriple_subBlankF : ∀ (f : Nat) (s : Str),
    NoTriple s → NoTriple (subBlankF f s) := by
  intro f
  induction f with
  | zero => intro s h; exact h
  | succ f ih =>
    intro s hs
    cases s with
    | nil =>
      rw [show subBlankF (f + 1) [] = [] from rfl]
      exact noTriple_nil
    | cons c t =>
      have ht : NoTriple t := noTriple_of_within (List.suffix_cons c t).isInfix hs
      simp only [subBlankF]
      by_cases hcn : c = '\n'
      · rw [if_pos hcn]
        by_cases h2 : 2 ≤ nlCount (t.takeWhile isPySpace)
        · rw [if_pos h2]
          have hrem : NoTriple (afterLastNl (t.takeWhile isPySpace) ++
              t.dropWhile isPySpace) := by
            obtain ⟨u, hu⟩ := afterLastNl_suffix (t.takeWhile isPySpace)
            apply noTriple_of_within _ ht
            have heq : t = u ++ (afterLastNl (t.takeWhile isPySpace) ++
                t.dropWhile isPySpace) := by
              rw [← List.append_assoc, hu, List.takeWhile_append_dropWhile]
            exact (show _ <:+ t from ⟨u, heq.symm⟩).isInfix
          have hY := ih _ hrem
          intro hi
          rcases List.infix_cons_iff.mp hi with hpre | hi2
          · obtain ⟨w, hw⟩ := hpre
            rw [strL_threeTicks] at hw
            injection hw with h1 _
            exact absurd h1 (by decide)
          rcases List.infix_cons_iff.mp hi2 with hpre | hi3
          · obtain ⟨w, hw⟩ := hpre
            rw [strL_threeTicks] at hw
            injection hw with h1 _
            exact absurd h1 (by decide)
          · exact hY hi3
        · rw [if_neg h2]
          intro hi
          rcases List.infix_cons_iff.mp hi with hpre | hi2
          · obtain ⟨w, hw⟩ := hpre
            rw [strL_threeTicks] at hw
            injection hw with h1 _
            rw [hcn] at h1
            exact absurd h1 (by decide)
          · exact ih t ht hi2
      · rw [if_neg hcn]
        intro hi
        rcases List.infix_cons_iff.mp hi with hpre | hi2
        · obtain ⟨w, hw⟩ := hpre
          rw [strL_threeTicks] at hw
          injection hw with h1 h2
          have hnt : ¬ strL "``" <+: t := by
            intro hp
            apply hs
            rw [strL_threeTicks]
            obtain ⟨w', hw'⟩ := hp
            rw [strL_twoTicks] at hw'
            apply List.IsPrefix.isInfix
            refine ⟨w', ?_⟩
            rw [show ([btick, btick, btick] : Str) ++ w' =
              btick :: ([btick, btick] ++ w') from rfl, hw', h1]
          apply subBlankF_no_twoTick f t hnt
          rw [strL_twoTicks]
          exact ⟨w, h2⟩
        · exact ih t ht hi2

/-- The blank-line scan preserves a non-whitespace start. -/
theorem subBlankF_noSpaceStart (f : Nat) (s : Str) (h : NoSpaceStart s) :
    NoSpaceStart (subBlankF f s) := by
  cases f with
  | zero => exact h
  | succ f =>
    cases s with
    | nil =>
      intro c hc
      rw [show subBlankF (f + 1) [] = [] from rfl] at hc
      exact Option.noConfusion hc
    | cons d w =>
      have hd : isPySpace d = false := h d rfl
      have hdn : ¬ d = '\n' := by
        intro hh
        subst hh
        simp [isPySpace] at hd
      simp only [subBlankF, if_neg hdn]
      intro c hc
      rw [List.head?_cons] at hc
      injection hc with hc
      subst hc
      exact hd

/-- The blank-line scan preserves a non-whitespace end (with fuel at
least the input length). -/
theorem subBlankF_noSpaceEnd : ∀ (f : Nat) (s : Str), s.length ≤ f →
    NoSpaceEnd s → NoSpaceEnd (subBlankF f s) := by
  intro f
  induction f with
  | zero => intro s _ h; exact h
  | succ f ih =>
    intro s hl hend
    cases s with
    | nil =>
      intro c hc
      rw [show subBlankF (f + 1) [] = [] from rfl] at hc
      exact Option.noConfusion hc
    | cons c t =>
      have hlt : t.length ≤ f := by
        simp only [List.length_cons] at hl
        omega
      have hcons_case : ∀ (X : Str), X = subBlankF f t → NoSpaceEnd (c :: X) := by
        intro X hX
        by_cases htn : t = []
        · subst htn
          rw [hX, subBlankF_nil]
          intro x hx
          injection hx with hx
          subst hx
          exact hend c rfl
        · have hXne : X ≠ [] := by rw [hX]; exact subBlankF_ne_nil f t htn
          have hendt : NoSpaceEnd t := by
            intro x hx
            exact hend x ((getLast?_of_suffix (List.suffix_cons c t) htn).symm ▸ hx)
          have hendX : NoSpaceEnd X := hX ▸ ih t hlt hendt
          intro x hx
          rw [← getLast?_of_suffix (List.suffix_cons c X) hXne] at hx
          exact hendX x hx
      by_cases hcn : c = '\n'
      · by_cases h2 : 2 ≤ nlCount (t.takeWhile isPySpace)
        · simp only [subBlankF, if_pos hcn, if_pos h2]
          have hrun_ne : t.takeWhile isPySpace ≠ [] := by
            intro hh
            rw [hh] at h2
            simp [nlCount] at h2
          have ht_ne : t ≠ [] := by
            intro hh
            subst hh
            exact hrun_ne rfl
          have hrest_ne : t.dropWhile isPySpace ≠ [] := by
            intro hh
            have hts : t.takeWhile isPySpace = t := by
              conv_rhs => rw [← List.takeWhile_append_dropWhile isPySpace t, hh,
                List.append_nil]
            cases hgl : t.getLast? with
            | none => exact ht_ne (List.getLast?_eq_none_iff.mp hgl)
            | some x =>
              have hx : x ∈ t := List.mem_of_mem_getLast? hgl
              rw [← hts] at hx
              have hws : isPySpace x = true := List.mem_takeWhile_imp hx
              have hlast : (c :: t).getLast? = some x := by
                rw [← getLast?_of_suffix (List.suffix_cons c t) ht_ne]
                exact hgl
              have := hend x hlast
              rw [this] at hws
              exact Bool.noConfusion hws
          have hrem_ne : afterLastNl (t.takeWhile isPySpace) ++
              t.dropWhile isPySpace ≠ [] := by
            intro hh
            exact hrest_ne (List.append_eq_nil.mp hh).2
          have hY_ne : subBlankF f (afterLastNl (t.takeWhile isPySpace) ++
              t.dropWhile isPySpace) ≠ [] := subBlankF_ne_nil f _ hrem_ne
          have hremlen : (afterLastNl (t.takeWhile isPySpace) ++
              t.dropWhile isPySpace).length ≤ f := by
            have hvlen := afterLastNl_length h2
            have hlensplit : (t.takeWhile isPySpace).length +
                (t.dropWhile isPySpace).length = t.length := by
              conv_rhs => rw [← List.takeWhile_append_dropWhile isPySpace t]
              exact (List.length_append _ _).symm
            rw [List.length_append]
            omega
          have hendrem : NoSpaceEnd (afterLastNl (t.takeWhile isPySpace) ++
              t.dropWhile isPySpace) := by
            intro x hx
            rw [← getLast?_of_suffix
              (List.suffix_append _ (t.dropWhile isPySpace)) hrest_ne] at hx
            rw [getLast?_of_suffix (List.dropWhile_suffix isPySpace) hrest_ne] at hx
            apply hend x
            rw [← getLast?_of_suffix (List.suffix_cons c t) ht_ne]
            exact hx
          have hendY := ih _ hremlen hendrem
          intro x hx
          have hsuf2 : subBlankF f (afterLastNl (t.takeWhile isPySpace) ++
              t.dropWhile isPySpace) <:+
              '\n' :: '\n' :: subBlankF f (afterLastNl (t.takeWhile isPySpace) ++
                t.dropWhile isPySpace) := ⟨['\n', '\n'], rfl⟩
          rw [← getLast?_of_suffix hsuf2 hY_ne] at hx
          exact hendY x hx
        · simp only [subBlankF, if_pos hcn, if_neg h2]
          exact hcons_case _ rfl
      · simp only [subBlankF, if_neg hcn]
        exact hcons_case _ rfl

/-- On asterisk-free text the bold substitution is the identity. -/
theorem subBoldF_of_no_star : ∀ (f : Nat) (s : Str), '*' ∉ s → subBoldF f s = s := by
  intro f
  induction f with
  | zero => intro s _; rfl
  | succ f ih =>
    intro s hs
    cases s with
    | nil => rfl
    | cons c t =>
      have hc : ¬ c = '*' := fun h => hs (h ▸ List.mem_cons_self c t)
      simp only [subBoldF, if_neg hc]
      rw [ih t (fun h => hs (List.mem_cons_of_mem c h))]

/-- On asterisk-free text the italic substitution is the identity. -/
theorem subItalF_of_no_star : ∀ (f : Nat) (s : Str), '*' ∉ s → subItalF f s = s := by
  intro f
  induction f with
  | zero => intro s _; rfl
  | succ f ih =>
    intro s hs
    cases s with
    | nil => rfl
    | cons c t =>
      have hc : ¬ c = '*' := fun h => hs (h ▸ List.mem_cons_self c t)
      simp only [subItalF, if_neg hc]
      rw [ih t (fun h => hs (List.mem_cons_of_mem c h))]

/-- C8 counterexample: `clean` is not idempotent.  On `"* x*"` the italic
unwrapping exposes a leading space (`clean` yields `" x"`), which only the
next application's `strip` removes (`clean (" x") = "x"`). -/
theorem clean_code_idempotent_refuted : ¬ C8ClaimStatement := by
  intro h
  have hx := h (strL "* x*")
  exact absurd hx (by decide)

/-- C8 amended: `clean` is idempotent on every text in which the asterisk
character does not occur (the counterexample forces the exception: markdown
emphasis unwrapping can expose surrounding whitespace that only the next
application trims). -/
theorem clean_code_idempotent_on_starfree (x : Str) (hstar : '*' ∉ x) :
    clean_code_from_response (clean_code_from_response x) =
      clean_code_from_response x := by
  have hstar1 : '*' ∉ subPyFence x := fun h => hstar (subPyFenceF_subset _ _ _ h)
  have hstar2 : '*' ∉ subFence (subPyFence x) :=
    fun h => hstar1 (subFenceF_subset _ _ _ h)
  have hstar3 : '*' ∉ stripL (subFence (subPyFence x)) :=
    fun h => hstar2 ((stripL_within _).subset h)
  have hnt2 : NoTriple (subFence (subPyFence x)) := noTriple_subFence _
  have hnt3 : NoTriple (stripL (subFence (subPyFence x))) :=
    noTriple_of_within (stripL_within _) hnt2
  have hbold : subBold (stripL (subFence (subPyFence x))) =
      stripL (subFence (subPyFence x)) := subBoldF_of_no_star _ _ hstar3
  have hital : subItal (stripL (subFence (subPyFence x))) =
      stripL (subFence (subPyFence x)) := subItalF_of_no_star _ _ hstar3
  have hcmt : subCmtFence (stripL (subFence (subPyFence x))) =
      stripL (subFence (subPyFence x)) := subCmtFenceF_of_noTriple _ true _ hnt3
  have hclean1 : clean_code_from_response x =
      subBlank (stripL (subFence (subPyFence x))) := by
    unfold clean_code_from_response
    rw [hbold, hital, hcmt]
  rw [hclean1]
  set y := subBlank (stripL (subFence (subPyFence x))) with hy
  have hstary : '*' ∉ y := by
    intro h
    rcases subBlankF_subset _ _ _ h with hmem | hnl
    · exact hstar3 hmem
    · exact absurd hnl (by decide)
  have hnty : NoTriple y := noTriple_subBlankF _ _ hnt3
  have hsy : NoSpaceStart y := subBlankF_noSpaceStart _ _ (stripL_noSpaceStart _)
  have hey : NoSpaceEnd y := subBlankF_noSpaceEnd _ _ le_rfl (stripL_noSpaceEnd _)
  have hcoly : Collapsed y := collapsed_subBlankF _ _ le_rfl
  have e1 : subPyFence y = y := subPyFenceF_of_noTriple _ _ hnty
  have e2 : subFence y = y := subFenceF_of_noTriple _ _ hnty
  have e3 : stripL y = y := stripL_eq_self hsy hey
  have e4 : subBold y = y := subBoldF_of_no_star _ _ hstary
  have e5 : subItal y = y := subItalF_of_no_star _ _ hstary
  have e6 : subCmtFence y = y := subCmtFenceF_of_noTriple _ true _ hnty
  have e7 : subBlank y = y := subBlankF_of_collapsed _ _ hcoly
  unfold clean_code_from_response
  rw [e1, e2, e3, e4, e5, e6, e7]

/-- C8 amended witness: the spec's own fenced example is asterisk-free and
cleaning it twice equals cleaning it once. -/
theorem clean_code_idempotent_on_starfree_witness :
    '*' ∉ strL "```python\nhi\n```" ∧
      clean_code_from_response (clean_code_from_response (strL "```python\nhi\n```")) =
        clean_code_from_response (strL "```python\nhi\n```") :=
  ⟨by decide,
   clean_code_idempotent_on_starfree (strL "```python\nhi\n```") (by decide)⟩

end CodeEditor
